import Mathlib

/-!
Verification development for the XML feed-monitoring core (`xml.py`):
timestamp normalization, the lease-based lock (`acquire_lock`) and the
per-feed refresh-history aggregation (`process_feed`).

Instants (Python `datetime` values in UTC) are modelled as `Int` seconds
since the Unix epoch.  The Mongo lock collection is modelled as a list of
lock documents; the history collection is modelled per feed id as the
`Option` of the single document `find_one({"_id": employerId})` returns.
Each call of Python's `utc_now()` is a fresh sample of the clock, so the
embedding takes these samples as explicit parameters.
-/

namespace XmlFeed

/-- IST offset (5 hours 30 minutes) in seconds, mirroring `IST_OFFSET`. -/
def IST_OFFSET : Int := 5 * 3600 + 30 * 60

/-- Mirrors `to_ist(dt_utc) = dt_utc + IST_OFFSET`. -/
def to_ist (dt_utc : Int) : Int := dt_utc + IST_OFFSET

/-! ### The timestamp normalizer (`normalize_last_modified`)

A parsed Python `datetime` is modelled by its wall-clock reading in
seconds (`wall`), its sub-second part (`micro`) and its timezone, which is
either absent (naive datetime) or an offset from UTC in seconds.  The
stdlib call `email.utils.parsedate_to_datetime` is an external library
function; it is modelled as an arbitrary parse function returning
`Option PyDateTime` (`none` standing for raising an exception, which the
bare `except:` of the source converts to returning `None`). -/

structure PyDateTime where
  wall : Int
  micro : Nat
  tz : Option Int
  deriving DecidableEq

/-- Mirrors `dt.astimezone(timezone.utc)` on an aware datetime whose
offset is `off`: the instant is unchanged, the wall clock becomes UTC. -/
def astimezone_utc (dt : PyDateTime) (off : Int) : PyDateTime :=
  { wall := dt.wall - off, micro := dt.micro, tz := some 0 }

/-- Mirrors `normalize_last_modified(raw)`: parse; if the result carries a
timezone convert to UTC, otherwise stamp UTC onto the naive value; drop
microseconds; any parse failure yields `None`. -/
def normalize_last_modified (parsedate_to_datetime : String → Option PyDateTime)
    (raw : String) : Option PyDateTime :=
  match parsedate_to_datetime raw with
  | none => none
  | some dt =>
    let dt' := match dt.tz with
      | some off => astimezone_utc dt off
      | none => { dt with tz := some 0 }
    some { dt' with micro := 0 }

/-! ### The lease lock (`acquire_lock`) -/

/-- A document of the `feed_update_lock` collection. -/
structure LockDoc where
  _id : String
  timestamp : Int
  last_mod_utc : Int
  deriving DecidableEq

/-- The lock TTL: 10 minutes, in seconds (`timedelta(minutes=10)`). -/
def LOCK_TTL : Int := 600

/-- Mirrors `lock_col.delete_many({"timestamp": {"$lt": expire_time}})`
with `expire_time = now - timedelta(minutes=10)`: every lock document
whose timestamp is strictly older than `now - 600` is removed. -/
def purge (now : Int) (store : List LockDoc) : List LockDoc :=
  store.filter (fun d => !(decide (d.timestamp < now - LOCK_TTL)))

/-- Mirrors the `find_one_and_update` upsert with `$setOnInsert` and
`ReturnDocument.BEFORE`: atomically, if a document keyed `employerId`
exists it is returned (and nothing is written); otherwise the new lock
document is inserted and `None` is returned.  The boolean is
`result is None`, i.e. `true` iff the insert happened. -/
def upsert (store : List LockDoc) (employerId : String) (now last_mod : Int) :
    Bool × List LockDoc :=
  match store.find? (fun d => d._id == employerId) with
  | some _ => (false, store)
  | none => (true, store ++ [{ _id := employerId, timestamp := now, last_mod_utc := last_mod }])

/-- Mirrors `acquire_lock(lock_col, employerId, last_mod_utc)`; `now` is
the sample of `utc_now()` taken inside the call.  Purges expired locks,
then attempts the atomic insert-if-absent; returns the acquisition
boolean together with the lock collection's new contents. -/
def acquire_lock (store : List LockDoc) (employerId : String)
    (last_mod_utc : Int) (now : Int) : Bool × List LockDoc :=
  upsert (purge now store) employerId now last_mod_utc

/-! ### The history aggregation (`process_feed`) -/

/-- Zero-padded decimal rendering, 2 digits (`%m`, `%d`). -/
def pad2 (n : Nat) : String :=
  if n < 10 then "0" ++ toString n else toString n

/-- Zero-padded decimal rendering, 4 digits (`%Y`). -/
def pad4 (n : Nat) : String :=
  if n < 10 then "000" ++ toString n
  else if n < 100 then "00" ++ toString n
  else if n < 1000 then "0" ++ toString n
  else toString n

/-- Mirrors `now_utc.strftime("%Y-%m-%d")` on an instant given in seconds
since the Unix epoch: the proleptic-Gregorian civil date of the UTC day
containing the instant (standard days-to-civil conversion). -/
def dateOf (t : Int) : String :=
  let z := t.ediv 86400 + 719468
  let era := z.ediv 146097
  let doe := (z - era * 146097).toNat
  let yoe := (doe - doe / 1460 + doe / 36524 - doe / 146096) / 365
  let doy := doe - (365 * yoe + yoe / 4 - yoe / 100)
  let mp := (5 * doy + 2) / 153
  let d := doy - (153 * mp + 2) / 5 + 1
  let m := if mp < 10 then mp + 3 else mp - 9
  let y := era * 400 + yoe + (if m ≤ 2 then 1 else 0)
  pad4 y.toNat ++ "-" ++ pad2 m ++ "-" ++ pad2 d

/-- One entry of a day bucket's `times` list. -/
structure RefreshEvent where
  checked_utc : Int
  checked_ist : Int
  xml_last_updated_utc : Int
  xml_last_updated_ist : Int
  deriving DecidableEq

/-- One entry of `refresh_log`: a per-calendar-date bucket. -/
structure DayBucket where
  date : String
  count : Nat
  times : List RefreshEvent
  deriving DecidableEq

/-- A document of the `feed_timings_history` collection. -/
structure HistoryDoc where
  _id : String
  employerId : String
  employerName : String
  xml_url : String
  refresh_count : Nat
  xml_last_updated_utc : Int
  xml_last_updated_ist : Int
  refresh_log : List DayBucket
  deriving DecidableEq

/-- A document of the `feed_timings` source collection. -/
structure Feed where
  employerId : String
  employerName : String
  xml_url : String
  deriving DecidableEq

/-- Outcome labels for the branches of `process_feed` (which itself only
prints and returns). -/
inductive FeedOutcome where
  | unavailable
  | lockSkipFirst
  | firstEntry
  | noChange
  | lockSkipChange
  | updated
  deriving DecidableEq

/-- Mirrors the update branch's bucket logic: `next((d for d in daily if
d["date"] == today), None)`; if a bucket for `today` exists, the first
such bucket gets the event appended to `times` and its `count` bumped
in place; otherwise a fresh bucket is appended at the end. -/
def addEvent (daily : List DayBucket) (today : String) (ev : RefreshEvent) :
    List DayBucket :=
  match daily with
  | [] => [{ date := today, count := 1, times := [ev] }]
  | b :: rest =>
    if b.date == today then
      { b with count := b.count + 1, times := b.times ++ [ev] } :: rest
    else
      b :: addEvent rest today ev

/-- Mirrors `process_feed(feed, history, lock_col)`.  `hist` is what
`history.find_one({"_id": employerId})` returns; `fetched` is the result
of `fetch_last_modified(xml_url)` (a network effect, hence a parameter);
`now_utc` is the `utc_now()` sample of line 97 and `lock_now` the sample
taken inside `acquire_lock`.  Returns the branch taken, the history
document for this feed after the call, and the lock collection after the
call. -/
def process_feed (feed : Feed) (hist : Option HistoryDoc)
    (lock_store : List LockDoc) (fetched : Option Int)
    (now_utc lock_now : Int) :
    FeedOutcome × Option HistoryDoc × List LockDoc :=
  match fetched with
  | none => (.unavailable, hist, lock_store)
  | some last_mod_utc =>
    let last_mod_ist := to_ist last_mod_utc
    let now_ist := to_ist now_utc
    let today := dateOf now_utc
    match hist with
    | none =>
      match acquire_lock lock_store feed.employerId last_mod_utc lock_now with
      | (false, ls) => (.lockSkipFirst, none, ls)
      | (true, ls) =>
        (.firstEntry,
         some { _id := feed.employerId
                employerId := feed.employerId
                employerName := feed.employerName
                xml_url := feed.xml_url
                refresh_count := 1
                xml_last_updated_utc := last_mod_utc
                xml_last_updated_ist := last_mod_ist
                refresh_log := [{ date := today, count := 1,
                                  times := [{ checked_utc := now_utc
                                              checked_ist := now_ist
                                              xml_last_updated_utc := last_mod_utc
                                              xml_last_updated_ist := last_mod_ist }] }] },
         ls)
    | some doc =>
      if doc.xml_last_updated_utc == last_mod_utc then
        (.noChange, some doc, lock_store)
      else
        match acquire_lock lock_store feed.employerId last_mod_utc lock_now with
        | (false, ls) => (.lockSkipChange, some doc, ls)
        | (true, ls) =>
          let new_event : RefreshEvent :=
            { checked_utc := now_utc
              checked_ist := now_ist
              xml_last_updated_utc := last_mod_utc
              xml_last_updated_ist := last_mod_ist }
          (.updated,
           some { doc with refresh_count := doc.refresh_count + 1
                           xml_last_updated_utc := last_mod_utc
                           xml_last_updated_ist := last_mod_ist
                           refresh_log := addEvent doc.refresh_log today new_event },
           ls)

/-- Sum of the `count` fields over all day buckets of a refresh log. -/
def sumCounts (log : List DayBucket) : Nat :=
  (log.map (fun b => b.count)).sum

/-- The list of bucket date strings of a refresh log. -/
def dates (log : List DayBucket) : List String :=
  log.map (fun b => b.date)

/-- Runs `process_feed` once per step (a step is the triple of the fetched
`Last-Modified` value, the `now_utc` sample and the lock-side `utc_now()`
sample), starting from an existing history document, and demands that
every step takes the `updated` branch; `none` if any step takes another
branch. -/
def runUpdatedChain (feed : Feed) :
    HistoryDoc → List LockDoc → List (Int × Int × Int) →
    Option (HistoryDoc × List LockDoc)
  | doc, ls, [] => some (doc, ls)
  | doc, ls, step :: rest =>
    match process_feed feed (some doc) ls (some step.1) step.2.1 step.2.2 with
    | (.updated, some doc', ls') => runUpdatedChain feed doc' ls' rest
    | _ => none

/-! ### Race model for two concurrent `acquire_lock` calls

Mongo executes `delete_many` and `find_one_and_update` each as a single
atomic operation, so one `acquire_lock` call is two atomic steps on the
shared collection.  A race of callers A and B is an interleaving of their
four steps that preserves each caller's program order; there are six. -/

/-- One concurrent caller of `acquire_lock`: its `utc_now()` sample and
its `last_mod_utc` argument. -/
structure Caller where
  now : Int
  last_mod : Int
  deriving DecidableEq

/-- The four atomic store operations of two racing `acquire_lock` calls. -/
inductive RaceOp where
  | purgeA
  | upsertA
  | purgeB
  | upsertB
  deriving DecidableEq

/-- Shared lock collection plus each caller's return value (once its
`find_one_and_update` has executed). -/
structure RaceState where
  store : List LockDoc
  resA : Option Bool
  resB : Option Bool
  deriving DecidableEq

/-- Effect of one atomic step of the race on the shared state. -/
def raceOpApply (id : String) (A B : Caller) (s : RaceState) :
    RaceOp → RaceState
  | .purgeA => { s with store := purge A.now s.store }
  | .upsertA =>
    { store := (upsert s.store id A.now A.last_mod).2
      resA := some (upsert s.store id A.now A.last_mod).1
      resB := s.resB }
  | .purgeB => { s with store := purge B.now s.store }
  | .upsertB =>
    { store := (upsert s.store id B.now B.last_mod).2
      resA := s.resA
      resB := some (upsert s.store id B.now B.last_mod).1 }

/-- Executes a schedule of atomic steps. -/
def runRace (id : String) (A B : Caller) :
    List RaceOp → RaceState → RaceState
  | [], s => s
  | op :: rest, s => runRace id A B rest (raceOpApply id A B s op)

/-- All interleavings of `[purgeA, upsertA]` with `[purgeB, upsertB]`. -/
def interleavings : List (List RaceOp) :=
  [[.purgeA, .upsertA, .purgeB, .upsertB],
   [.purgeA, .purgeB, .upsertA, .upsertB],
   [.purgeA, .purgeB, .upsertB, .upsertA],
   [.purgeB, .purgeA, .upsertA, .upsertB],
   [.purgeB, .purgeA, .upsertB, .upsertA],
   [.purgeB, .upsertB, .purgeA, .upsertA]]

/-! ### Helper lemmas about the lock store -/

/-- No lock document for `id` is present in `store`. -/
def noLease (store : List LockDoc) (id : String) : Prop :=
  ∀ d ∈ store, d._id ≠ id

lemma find?_eq_none_of_noLease {l : List LockDoc} {id : String}
    (h : noLease l id) : l.find? (fun d => d._id == id) = none := by
  rw [List.find?_eq_none]
  intro d hd
  simpa using h d hd

lemma noLease_purge {l : List LockDoc} {id : String} (h : noLease l id)
    (n : Int) : noLease (purge n l) id := by
  intro d hd
  exact h d (List.mem_of_mem_filter hd)

lemma upsert_of_noLease {l : List LockDoc} {id : String} (h : noLease l id)
    (n m : Int) :
    upsert l id n m = (true, l ++ [{ _id := id, timestamp := n, last_mod_utc := m }]) := by
  unfold upsert
  rw [find?_eq_none_of_noLease h]

lemma upsert_of_found {l : List LockDoc} {id : String} {x : LockDoc}
    (h : l.find? (fun d => d._id == id) = some x) (n m : Int) :
    upsert l id n m = (false, l) := by
  unfold upsert
  rw [h]

lemma find?_append_lock {l : List LockDoc} {id : String} {x : LockDoc}
    (h : noLease l id) (hx : x._id = id) :
    (l ++ [x]).find? (fun d => d._id == id) = some x := by
  induction l with
  | nil => simp [List.find?, hx]
  | cons a rest ih =>
    have ha : (a._id == id) = false := by
      simpa using h a (by simp)
    simp only [List.cons_append, List.find?, ha]
    exact ih fun d hd => h d (by simp [hd])

lemma purge_append_keep {x : LockDoc} (l : List LockDoc) {n : Int}
    (h : ¬ x.timestamp < n - LOCK_TTL) :
    purge n (l ++ [x]) = purge n l ++ [x] := by
  simp [purge, List.filter_append, h]

lemma mem_purge {d : LockDoc} {l : List LockDoc} {n : Int} :
    d ∈ purge n l ↔ d ∈ l ∧ ¬ d.timestamp < n - LOCK_TTL := by
  simp [purge, List.mem_filter]

lemma upsert_blocked_append (l : List LockDoc) (id : String) (x : LockDoc)
    (h : noLease l id) (hx : x._id = id) (n m : Int) :
    upsert (l ++ [x]) id n m = (false, l ++ [x]) :=
  upsert_of_found (find?_append_lock h hx) n m

lemma upsert_blocked_purge_append (l : List LockDoc) (id : String)
    (x : LockDoc) (n' : Int) (h : noLease l id) (hx : x._id = id)
    (hkeep : ¬ x.timestamp < n' - LOCK_TTL) (n m : Int) :
    upsert (purge n' (l ++ [x])) id n m = (false, purge n' l ++ [x]) := by
  rw [purge_append_keep _ hkeep]
  exact upsert_blocked_append _ _ _ (noLease_purge h n') hx n m

/-! ### Helper lemmas about `process_feed` and the refresh log -/

lemma process_feed_firstEntry_eq {feed : Feed} {ls : List LockDoc}
    {last_mod now_utc lock_now : Int} {doc' : HistoryDoc} {ls' : List LockDoc}
    (h : process_feed feed none ls (some last_mod) now_utc lock_now
          = (.firstEntry, some doc', ls')) :
    doc' = ⟨feed.employerId, feed.employerId, feed.employerName, feed.xml_url,
            1, last_mod, to_ist last_mod,
            [⟨dateOf now_utc, 1,
              [⟨now_utc, to_ist now_utc, last_mod, to_ist last_mod⟩]⟩]⟩ := by
  simp only [process_feed] at h
  rcases hq : acquire_lock ls feed.employerId last_mod lock_now with ⟨b, ls2⟩
  rw [hq] at h
  cases b
  · simp at h
  · simp only [Prod.mk.injEq, Option.some.injEq] at h
    exact h.2.1.symm

lemma process_feed_updated_eq {feed : Feed} {doc : HistoryDoc}
    {ls : List LockDoc} {last_mod now_utc lock_now : Int}
    {doc' : HistoryDoc} {ls' : List LockDoc}
    (h : process_feed feed (some doc) ls (some last_mod) now_utc lock_now
          = (.updated, some doc', ls')) :
    doc' = { doc with
             refresh_count := doc.refresh_count + 1
             xml_last_updated_utc := last_mod
             xml_last_updated_ist := to_ist last_mod
             refresh_log := addEvent doc.refresh_log (dateOf now_utc)
               ⟨now_utc, to_ist now_utc, last_mod, to_ist last_mod⟩ } := by
  simp only [process_feed] at h
  by_cases hc : doc.xml_last_updated_utc = last_mod
  · rw [if_pos (by simpa using hc)] at h
    simp at h
  · rw [if_neg (by simpa using hc)] at h
    rcases hq : acquire_lock ls feed.employerId last_mod lock_now with ⟨b, ls2⟩
    rw [hq] at h
    cases b
    · simp at h
    · simp only [Prod.mk.injEq, Option.some.injEq] at h
      exact h.2.1.symm

lemma sumCounts_addEvent (daily : List DayBucket) (today : String)
    (ev : RefreshEvent) :
    sumCounts (addEvent daily today ev) = sumCounts daily + 1 := by
  induction daily with
  | nil => simp [addEvent, sumCounts]
  | cons b rest ih =>
    by_cases h : b.date == today
    · simp [addEvent, h, sumCounts]
      omega
    · simp only [addEvent, h, Bool.false_eq_true, if_false]
      simp [sumCounts] at ih ⊢
      omega

lemma addEvent_mem_last (daily : List DayBucket) (today : String)
    (ev : RefreshEvent) :
    ∃ b ∈ addEvent daily today ev,
      b.date = today ∧ b.times.getLast? = some ev := by
  induction daily with
  | nil =>
    refine ⟨⟨today, 1, [ev]⟩, by simp [addEvent], rfl, ?_⟩
    simp
  | cons hd rest ih =>
    by_cases h : hd.date == today
    · refine ⟨{ hd with count := hd.count + 1, times := hd.times ++ [ev] },
        by simp [addEvent, h], by simpa using h, ?_⟩
      simp [List.getLast?_concat]
    · rcases ih with ⟨b, hb, hdate, hlast⟩
      exact ⟨b, by simp [addEvent, h, hb], hdate, hlast⟩

lemma dates_addEvent_mem (daily : List DayBucket) (today : String)
    (ev : RefreshEvent) (h : today ∈ dates daily) :
    dates (addEvent daily today ev) = dates daily := by
  induction daily with
  | nil => simp [dates] at h
  | cons hd rest ih =>
    by_cases hh : hd.date == today
    · simp [addEvent, hh, dates]
    · have hmem : today ∈ dates rest := by
        have h' := h
        simp only [dates, List.map_cons, List.mem_cons] at h'
        rcases h' with h1 | h2
        · exact absurd h1.symm (by simpa using hh)
        · exact h2
      have hih := ih hmem
      simp only [addEvent, hh, Bool.false_eq_true, if_false]
      simp only [dates, List.map_cons] at hih ⊢
      rw [hih]

lemma dates_addEvent_not_mem (daily : List DayBucket) (today : String)
    (ev : RefreshEvent) (h : today ∉ dates daily) :
    dates (addEvent daily today ev) = dates daily ++ [today] := by
  induction daily with
  | nil => simp [addEvent, dates]
  | cons hd rest ih =>
    have h1 : today ≠ hd.date := fun he => h (by simp [dates, he])
    have hrest : today ∉ dates rest := by
      intro hr
      refine h ?_
      simp only [dates, List.map_cons, List.mem_cons]
      exact Or.inr hr
    have hh : (hd.date == today) = false := by
      simp only [beq_eq_false_iff_ne, ne_eq]
      exact fun he => h1 he.symm
    have hih := ih hrest
    simp only [addEvent, hh, Bool.false_eq_true, if_false]
    simp only [dates, List.map_cons] at hih ⊢
    rw [hih]
    simp

lemma counts_addEvent (daily : List DayBucket) (today : String)
    (ev : RefreshEvent) (h : ∀ b ∈ daily, b.count = b.times.length) :
    ∀ b ∈ addEvent daily today ev, b.count = b.times.length := by
  induction daily with
  | nil =>
    intro b hb
    simp [addEvent] at hb
    subst hb
    simp
  | cons hd rest ih =>
    intro b hb
    by_cases hh : hd.date == today
    · simp only [addEvent, hh, if_true] at hb
      rcases List.mem_cons.mp hb with h1 | h2
      · subst h1
        have := h hd (by simp)
        simp [this]
      · exact h b (by simp [h2])
    · simp only [addEvent, hh, Bool.false_eq_true, if_false] at hb
      rcases List.mem_cons.mp hb with h1 | h2
      · subst h1
        exact h b (by simp)
      · exact ih (fun b hb => h b (by simp [hb])) b h2

lemma runUpdatedChain_invariant (feed : Feed) (steps : List (Int × Int × Int)) :
    ∀ doc ls docN lsN,
      runUpdatedChain feed doc ls steps = some (docN, lsN) →
      docN.refresh_count = doc.refresh_count + steps.length
      ∧ (sumCounts doc.refresh_log = doc.refresh_count →
          sumCounts docN.refresh_log = docN.refresh_count) := by
  induction steps with
  | nil =>
    intro doc ls docN lsN h
    simp only [runUpdatedChain, Option.some.injEq, Prod.mk.injEq] at h
    rw [← h.1]
    exact ⟨by simp, fun hs => hs⟩
  | cons step rest ih =>
    intro doc ls docN lsN h
    simp only [runUpdatedChain] at h
    rcases hp : process_feed feed (some doc) ls (some step.1) step.2.1 step.2.2 with
      ⟨o, od, l⟩
    rw [hp] at h
    cases o <;> try simp at h
    case updated =>
      cases od with
      | none => simp at h
      | some doc' =>
        have hstep := process_feed_updated_eq hp
        have hrest := ih doc' l docN lsN h
        constructor
        · rw [hrest.1, hstep]
          simp only [List.length_cons]
          omega
        · intro hs
          refine hrest.2 ?_
          rw [hstep]
          simp only []
          rw [sumCounts_addEvent]
          omega

/-! ### Theorems for the claims -/

/-- C2: `acquire_lock(lock_col, employerId, t)` first deletes every lease,
for any resource id, whose timestamp is older than 10 minutes before
`now`, then attempts the insert-if-absent keyed by `employerId`; it
returns `true` iff no lease for `employerId` survived the purge — so a
lease acquired more than 10 minutes ago, never explicitly released, is
treated as absent and the call succeeds, inserting a fresh lease. -/
theorem acquire_lock_spec (store : List LockDoc) (id : String)
    (last_mod now : Int) :
    ((acquire_lock store id last_mod now).1 = true ↔
      (purge now store).find? (fun d => d._id == id) = none)
    ∧ (∀ d : LockDoc, d ∈ purge now store ↔
        d ∈ store ∧ ¬ d.timestamp < now - LOCK_TTL)
    ∧ ((∀ d ∈ store, d._id = id → d.timestamp < now - LOCK_TTL) →
        (acquire_lock store id last_mod now).1 = true
        ∧ (acquire_lock store id last_mod now).2
            = purge now store
              ++ [{ _id := id, timestamp := now, last_mod_utc := last_mod }]) := by
  refine ⟨?_, fun d => mem_purge, ?_⟩
  · unfold acquire_lock upsert
    cases h : (purge now store).find? (fun d => d._id == id) <;> simp [h]
  · intro hall
    have hnl : noLease (purge now store) id := by
      intro d hd hid
      rcases mem_purge.mp hd with ⟨hmem, hfresh⟩
      exact hfresh (hall d hmem hid)
    unfold acquire_lock
    rw [upsert_of_noLease hnl]
    exact ⟨rfl, rfl⟩

/-- Witness for `acquire_lock_spec`: a store holding only an expired lease
for the contested id lets the call acquire. -/
theorem acquire_lock_spec_witness :
    (acquire_lock [⟨"e", -1000, 5⟩] "e" 7 0).1 = true :=
  ((acquire_lock_spec [⟨"e", -1000, 5⟩] "e" 7 0).2.2 (by decide)).1

/-- C9: when `acquire_lock` returns `false` because a non-expired lease
for the same id exists, the pre-existing lease document survives in the
store unchanged (same timestamp, same fields), and the resulting store is
a sublist of the original — nothing is rewritten, so the lease still
expires 10 minutes after its original acquisition. -/
theorem acquire_lock_contended_frame (store : List LockDoc) (id : String)
    (last_mod now : Int) (d : LockDoc) (hd : d ∈ store) (hid : d._id = id)
    (hfresh : ¬ d.timestamp < now - LOCK_TTL) :
    (acquire_lock store id last_mod now).1 = false
    ∧ (acquire_lock store id last_mod now).2 = purge now store
    ∧ d ∈ (acquire_lock store id last_mod now).2
    ∧ (acquire_lock store id last_mod now).2.Sublist store := by
  have hdp : d ∈ purge now store := mem_purge.mpr ⟨hd, hfresh⟩
  have hsome : ((purge now store).find? (fun e => e._id == id)).isSome := by
    rw [List.find?_isSome]
    exact ⟨d, hdp, by simp [hid]⟩
  rcases Option.isSome_iff_exists.mp hsome with ⟨x, hx⟩
  have h := upsert_of_found hx now last_mod
  unfold acquire_lock
  rw [h]
  exact ⟨rfl, rfl, hdp, List.filter_sublist _⟩

/-- C1: two concurrent `acquire_lock` callers racing on the same
`employerId` (each a purge step then an atomic insert-if-absent step, in
any of the six interleavings), starting from a store with no lease for
that id and with clock samples within one TTL of each other: exactly one
caller receives `true`; no interleaving grants the lease to both. -/
theorem acquire_lock_no_double_grant (id : String) (A B : Caller)
    (store0 : List LockDoc) (sched : List RaceOp)
    (hsched : sched ∈ interleavings)
    (hfree : noLease store0 id)
    (hAB : B.now - LOCK_TTL ≤ A.now) (hBA : A.now - LOCK_TTL ≤ B.now) :
    ((runRace id A B sched ⟨store0, none, none⟩).resA = some true
      ∧ (runRace id A B sched ⟨store0, none, none⟩).resB = some false)
    ∨ ((runRace id A B sched ⟨store0, none, none⟩).resA = some false
      ∧ (runRace id A B sched ⟨store0, none, none⟩).resB = some true) := by
  have hA : noLease (purge A.now store0) id := noLease_purge hfree A.now
  have hB : noLease (purge B.now store0) id := noLease_purge hfree B.now
  have hBA2 : noLease (purge B.now (purge A.now store0)) id :=
    noLease_purge hA B.now
  have hAB2 : noLease (purge A.now (purge B.now store0)) id :=
    noLease_purge hB A.now
  have hkeepA : ¬ (A.now < B.now - LOCK_TTL) := not_lt.mpr hAB
  have hkeepB : ¬ (B.now < A.now - LOCK_TTL) := not_lt.mpr hBA
  simp only [interleavings, List.mem_cons, List.not_mem_nil, or_false] at hsched
  rcases hsched with h | h | h | h | h | h
  · subst h
    simp only [runRace, raceOpApply]
    rw [upsert_of_noLease hA A.now A.last_mod]
    dsimp only
    rw [upsert_blocked_purge_append (purge A.now store0) id
      ⟨id, A.now, A.last_mod⟩ B.now hA rfl hkeepA B.now B.last_mod]
    exact Or.inl ⟨rfl, rfl⟩
  · subst h
    simp only [runRace, raceOpApply]
    rw [upsert_of_noLease hBA2 A.now A.last_mod]
    dsimp only
    rw [upsert_blocked_append (purge B.now (purge A.now store0)) id
      ⟨id, A.now, A.last_mod⟩ hBA2 rfl B.now B.last_mod]
    exact Or.inl ⟨rfl, rfl⟩
  · subst h
    simp only [runRace, raceOpApply]
    rw [upsert_of_noLease hBA2 B.now B.last_mod]
    dsimp only
    rw [upsert_blocked_append (purge B.now (purge A.now store0)) id
      ⟨id, B.now, B.last_mod⟩ hBA2 rfl A.now A.last_mod]
    exact Or.inr ⟨rfl, rfl⟩
  · subst h
    simp only [runRace, raceOpApply]
    rw [upsert_of_noLease hAB2 A.now A.last_mod]
    dsimp only
    rw [upsert_blocked_append (purge A.now (purge B.now store0)) id
      ⟨id, A.now, A.last_mod⟩ hAB2 rfl B.now B.last_mod]
    exact Or.inl ⟨rfl, rfl⟩
  · subst h
    simp only [runRace, raceOpApply]
    rw [upsert_of_noLease hAB2 B.now B.last_mod]
    dsimp only
    rw [upsert_blocked_append (purge A.now (purge B.now store0)) id
      ⟨id, B.now, B.last_mod⟩ hAB2 rfl A.now A.last_mod]
    exact Or.inr ⟨rfl, rfl⟩
  · subst h
    simp only [runRace, raceOpApply]
    rw [upsert_of_noLease hB B.now B.last_mod]
    dsimp only
    rw [upsert_blocked_purge_append (purge B.now store0) id
      ⟨id, B.now, B.last_mod⟩ A.now hB rfl hkeepB A.now A.last_mod]
    exact Or.inr ⟨rfl, rfl⟩

/-- Witness for `acquire_lock_no_double_grant`: two callers at clock 0
racing on a previously unlocked id, fully interleaved. -/
theorem acquire_lock_no_double_grant_witness :
    ((runRace "e" ⟨0, 1⟩ ⟨0, 2⟩
        [.purgeA, .purgeB, .upsertA, .upsertB] ⟨[], none, none⟩).resA = some true
      ∧ (runRace "e" ⟨0, 1⟩ ⟨0, 2⟩
        [.purgeA, .purgeB, .upsertA, .upsertB] ⟨[], none, none⟩).resB = some false)
    ∨ ((runRace "e" ⟨0, 1⟩ ⟨0, 2⟩
        [.purgeA, .purgeB, .upsertA, .upsertB] ⟨[], none, none⟩).resA = some false
      ∧ (runRace "e" ⟨0, 1⟩ ⟨0, 2⟩
        [.purgeA, .purgeB, .upsertA, .upsertB] ⟨[], none, none⟩).resB = some true) :=
  acquire_lock_no_double_grant "e" ⟨0, 1⟩ ⟨0, 2⟩ []
    [.purgeA, .purgeB, .upsertA, .upsertB]
    (by decide) (fun d hd => absurd hd (List.not_mem_nil d))
    (by decide) (by decide)

/-- Witness for `acquire_lock_contended_frame`: a live lease taken at
time 100 blocks an attempt at time 400 and is left in place. -/
theorem acquire_lock_contended_frame_witness :
    (acquire_lock [⟨"e", 100, 5⟩] "e" 6 400).1 = false
    ∧ (⟨"e", 100, 5⟩ : LockDoc) ∈ (acquire_lock [⟨"e", 100, 5⟩] "e" 6 400).2 := by
  have h := acquire_lock_contended_frame [⟨"e", 100, 5⟩] "e" 6 400
    ⟨"e", 100, 5⟩ (by decide) (by decide) (by decide)
  exact ⟨h.1, h.2.2.1⟩

/-- C5: for a feed with no prior history record, when the lease is
acquired, the first-entry branch of `process_feed` inserts a history
record with `refresh_count = 1` and a `refresh_log` holding exactly one
day bucket, dated with `now`'s UTC date, with `count = 1` and exactly one
refresh event. -/
theorem process_feed_first_observation (feed : Feed) (ls : List LockDoc)
    (last_mod now_utc lock_now : Int)
    (hacq : (acquire_lock ls feed.employerId last_mod lock_now).1 = true) :
    process_feed feed none ls (some last_mod) now_utc lock_now
      = (.firstEntry,
         some ⟨feed.employerId, feed.employerId, feed.employerName, feed.xml_url,
               1, last_mod, to_ist last_mod,
               [⟨dateOf now_utc, 1,
                 [⟨now_utc, to_ist now_utc, last_mod, to_ist last_mod⟩]⟩]⟩,
         (acquire_lock ls feed.employerId last_mod lock_now).2) := by
  rcases hq : acquire_lock ls feed.employerId last_mod lock_now with ⟨b, ls2⟩
  rw [hq] at hacq
  cases b
  · exact absurd hacq (by simp)
  · simp only [process_feed]
    rw [hq]

/-- Witness for `process_feed_first_observation` at a concrete feed with
an empty lock store and clock 0. -/
theorem process_feed_first_observation_witness :
    process_feed ⟨"e", "n", "u"⟩ none [] (some 5) 0 0
      = (.firstEntry,
         some ⟨"e", "e", "n", "u", 1, 5, to_ist 5,
               [⟨dateOf 0, 1, [⟨0, to_ist 0, 5, to_ist 5⟩]⟩]⟩,
         (acquire_lock [] "e" 5 0).2) :=
  process_feed_first_observation ⟨"e", "n", "u"⟩ [] 5 0 0 (by decide)

/-- C8: if the fetched timestamp is absent (Unavailable) or the prior
record's `xml_last_updated_utc` equals it exactly (Unchanged),
`process_feed` attempts no lease acquisition and writes nothing: the
history document and the lock collection both come back untouched. -/
theorem process_feed_skip_no_writes (feed : Feed) (hist : Option HistoryDoc)
    (ls : List LockDoc) (now_utc lock_now : Int) :
    process_feed feed hist ls none now_utc lock_now = (.unavailable, hist, ls)
    ∧ (∀ doc last_mod, hist = some doc → doc.xml_last_updated_utc = last_mod →
        process_feed feed hist ls (some last_mod) now_utc lock_now
          = (.noChange, hist, ls)) := by
  constructor
  · rfl
  · intro doc last_mod hdoc hc
    subst hdoc
    simp [process_feed, hc]

/-- Witness for `process_feed_skip_no_writes`: an unchanged probe result
leaves both stores untouched. -/
theorem process_feed_skip_no_writes_witness :
    process_feed ⟨"e", "n", "u"⟩ (some ⟨"e", "e", "n", "u", 1, 5, 19805, []⟩)
      [] (some 5) 0 0
      = (.noChange, some ⟨"e", "e", "n", "u", 1, 5, 19805, []⟩, []) :=
  (process_feed_skip_no_writes ⟨"e", "n", "u"⟩
    (some ⟨"e", "e", "n", "u", 1, 5, 19805, []⟩) [] 0 0).2
    ⟨"e", "e", "n", "u", 1, 5, 19805, []⟩ 5 rfl rfl

/-- C10: the `updated` branch preserves `_id`, `employerId`,
`employerName` and `xml_url`, and writes exactly `refresh_count`,
`xml_last_updated_utc`, `xml_last_updated_ist` and `refresh_log`. -/
theorem process_feed_update_frame (feed : Feed) (doc : HistoryDoc)
    (ls : List LockDoc) (last_mod now_utc lock_now : Int)
    (doc' : HistoryDoc) (ls' : List LockDoc)
    (h : process_feed feed (some doc) ls (some last_mod) now_utc lock_now
          = (.updated, some doc', ls')) :
    doc'._id = doc._id ∧ doc'.employerId = doc.employerId
    ∧ doc'.employerName = doc.employerName ∧ doc'.xml_url = doc.xml_url
    ∧ doc'.refresh_count = doc.refresh_count + 1
    ∧ doc'.xml_last_updated_utc = last_mod
    ∧ doc'.xml_last_updated_ist = to_ist last_mod
    ∧ doc'.refresh_log = addEvent doc.refresh_log (dateOf now_utc)
        ⟨now_utc, to_ist now_utc, last_mod, to_ist last_mod⟩ := by
  have hd := process_feed_updated_eq h
  subst hd
  exact ⟨rfl, rfl, rfl, rfl, rfl, rfl, rfl, rfl⟩

/-- Witness for `process_feed_update_frame` at a concrete changed feed. -/
theorem process_feed_update_frame_witness :
    (⟨"e", "e", "n", "u", 2, 6, 19806,
      [⟨"1970-01-01", 1, [⟨0, 19800, 5, 19805⟩]⟩,
       ⟨"1970-01-02", 1, [⟨86400, 106200, 6, 19806⟩]⟩]⟩ : HistoryDoc)._id = "e"
    ∧ (⟨"e", "e", "n", "u", 2, 6, 19806,
      [⟨"1970-01-01", 1, [⟨0, 19800, 5, 19805⟩]⟩,
       ⟨"1970-01-02", 1, [⟨86400, 106200, 6, 19806⟩]⟩]⟩ : HistoryDoc).refresh_count
      = 1 + 1 := by
  have h := process_feed_update_frame ⟨"e", "n", "u"⟩
    ⟨"e", "e", "n", "u", 1, 5, 19805, [⟨"1970-01-01", 1, [⟨0, 19800, 5, 19805⟩]⟩]⟩
    [] 6 86400 1000
    ⟨"e", "e", "n", "u", 2, 6, 19806,
      [⟨"1970-01-01", 1, [⟨0, 19800, 5, 19805⟩]⟩,
       ⟨"1970-01-02", 1, [⟨86400, 106200, 6, 19806⟩]⟩]⟩
    [⟨"e", 1000, 6⟩] (by decide)
  exact ⟨h.1, h.2.2.2.2.1⟩

/-- C3: each `updated` append of `process_feed` increments
`refresh_count` by exactly one; and after a first observation followed by
any chain of N `updated` appends, `refresh_count = N + 1` and equals the
sum of the `count` fields over all day buckets of `refresh_log`. -/
theorem refresh_count_invariant (feed : Feed) :
    (∀ doc ls last_mod now_utc lock_now doc' ls',
        process_feed feed (some doc) ls (some last_mod) now_utc lock_now
          = (.updated, some doc', ls') →
        doc'.refresh_count = doc.refresh_count + 1)
    ∧ (∀ ls last_mod now_utc lock_now doc0 ls0 steps docN lsN,
        process_feed feed none ls (some last_mod) now_utc lock_now
          = (.firstEntry, some doc0, ls0) →
        runUpdatedChain feed doc0 ls0 steps = some (docN, lsN) →
        docN.refresh_count = steps.length + 1
        ∧ sumCounts docN.refresh_log = docN.refresh_count) := by
  constructor
  · intro doc ls last_mod now_utc lock_now doc' ls' h
    rw [process_feed_updated_eq h]
  · intro ls last_mod now_utc lock_now doc0 ls0 steps docN lsN h0 hchain
    have hd0 := process_feed_firstEntry_eq h0
    have hinv := runUpdatedChain_invariant feed steps doc0 ls0 docN lsN hchain
    have hc0 : doc0.refresh_count = 1 := by rw [hd0]
    have hs0 : sumCounts doc0.refresh_log = 1 := by
      rw [hd0]
      simp [sumCounts]
    constructor
    · rw [hinv.1, hc0]
      omega
    · exact hinv.2 (by rw [hc0, hs0])

/-- Witness for `refresh_count_invariant`: a concrete first observation
followed by one `updated` append yields count 2 = sum of bucket counts. -/
theorem refresh_count_invariant_witness :
    (⟨"e", "e", "n", "u", 2, 6, 19806,
      [⟨"1970-01-01", 1, [⟨0, 19800, 5, 19805⟩]⟩,
       ⟨"1970-01-02", 1, [⟨86400, 106200, 6, 19806⟩]⟩]⟩ : HistoryDoc).refresh_count
      = [((6 : Int), (86400 : Int), (1000 : Int))].length + 1
    ∧ sumCounts (⟨"e", "e", "n", "u", 2, 6, 19806,
      [⟨"1970-01-01", 1, [⟨0, 19800, 5, 19805⟩]⟩,
       ⟨"1970-01-02", 1, [⟨86400, 106200, 6, 19806⟩]⟩]⟩ : HistoryDoc).refresh_log
      = 2 := by
  have h := (refresh_count_invariant ⟨"e", "n", "u"⟩).2 [] 5 0 0
    ⟨"e", "e", "n", "u", 1, 5, 19805, [⟨"1970-01-01", 1, [⟨0, 19800, 5, 19805⟩]⟩]⟩
    [⟨"e", 0, 5⟩] [(6, 86400, 1000)]
    ⟨"e", "e", "n", "u", 2, 6, 19806,
      [⟨"1970-01-01", 1, [⟨0, 19800, 5, 19805⟩]⟩,
       ⟨"1970-01-02", 1, [⟨86400, 106200, 6, 19806⟩]⟩]⟩
    [⟨"e", 1000, 6⟩] (by decide) (by decide)
  exact ⟨h.1, h.2.trans h.1⟩

/-- C4: on every `updated` append, uniqueness of bucket dates is
preserved (an append on an already-present UTC date adds no new bucket:
the date list is unchanged, so both same-date events land in the one
existing bucket), and every bucket's `count` stays equal to the length of
its `times` list. -/
theorem process_feed_daylog_unique_dates (feed : Feed) (doc : HistoryDoc)
    (ls : List LockDoc) (last_mod now_utc lock_now : Int)
    (doc' : HistoryDoc) (ls' : List LockDoc)
    (h : process_feed feed (some doc) ls (some last_mod) now_utc lock_now
          = (.updated, some doc', ls')) :
    ((dates doc.refresh_log).Nodup → (dates doc'.refresh_log).Nodup)
    ∧ (dateOf now_utc ∈ dates doc.refresh_log →
        dates doc'.refresh_log = dates doc.refresh_log)
    ∧ ((∀ b ∈ doc.refresh_log, b.count = b.times.length) →
        ∀ b ∈ doc'.refresh_log, b.count = b.times.length) := by
  have hd := process_feed_updated_eq h
  have hlog : doc'.refresh_log = addEvent doc.refresh_log (dateOf now_utc)
      ⟨now_utc, to_ist now_utc, last_mod, to_ist last_mod⟩ := by rw [hd]
  rw [hlog]
  refine ⟨?_, fun hm => dates_addEvent_mem _ _ _ hm, fun hc => counts_addEvent _ _ _ hc⟩
  intro hnd
  by_cases hm : dateOf now_utc ∈ dates doc.refresh_log
  · rw [dates_addEvent_mem _ _ _ hm]
    exact hnd
  · rw [dates_addEvent_not_mem _ _ _ hm]
    simp [List.nodup_append, hnd, hm]

/-- Witness for `process_feed_daylog_unique_dates`: a second event on the
same UTC day reuses the existing bucket, leaving the date list fixed. -/
theorem process_feed_daylog_unique_dates_witness :
    dates (⟨"e", "e", "n", "u", 2, 6, 19806,
      [⟨"1970-01-01", 2, [⟨0, 19800, 5, 19805⟩,
        ⟨50000, 69800, 6, 19806⟩]⟩]⟩ : HistoryDoc).refresh_log
      = dates (⟨"e", "e", "n", "u", 1, 5, 19805,
      [⟨"1970-01-01", 1, [⟨0, 19800, 5, 19805⟩]⟩]⟩ : HistoryDoc).refresh_log := by
  have h := process_feed_daylog_unique_dates ⟨"e", "n", "u"⟩
    ⟨"e", "e", "n", "u", 1, 5, 19805, [⟨"1970-01-01", 1, [⟨0, 19800, 5, 19805⟩]⟩]⟩
    [] 6 50000 0
    ⟨"e", "e", "n", "u", 2, 6, 19806,
      [⟨"1970-01-01", 2, [⟨0, 19800, 5, 19805⟩, ⟨50000, 69800, 6, 19806⟩]⟩]⟩
    [⟨"e", 0, 6⟩] (by decide)
  exact h.2.1 (by decide)

/-- C6: after either append branch of `process_feed` (first observation
or change), `xml_last_updated_utc` of the stored record equals the
`xml_last_updated_utc` field of the event just appended — the most recent
refresh event, sitting last in the bucket for `now`'s UTC date. -/
theorem process_feed_lastUpdated_matches (feed : Feed) (ls : List LockDoc)
    (last_mod now_utc lock_now : Int) :
    (∀ doc' ls', process_feed feed none ls (some last_mod) now_utc lock_now
        = (.firstEntry, some doc', ls') →
      ∃ b ∈ doc'.refresh_log, b.date = dateOf now_utc
        ∧ ∃ e, b.times.getLast? = some e
          ∧ e.xml_last_updated_utc = doc'.xml_last_updated_utc
          ∧ e.checked_utc = now_utc)
    ∧ (∀ doc doc' ls',
        process_feed feed (some doc) ls (some last_mod) now_utc lock_now
          = (.updated, some doc', ls') →
      ∃ b ∈ doc'.refresh_log, b.date = dateOf now_utc
        ∧ ∃ e, b.times.getLast? = some e
          ∧ e.xml_last_updated_utc = doc'.xml_last_updated_utc
          ∧ e.checked_utc = now_utc) := by
  constructor
  · intro doc' ls' h
    rw [process_feed_firstEntry_eq h]
    refine ⟨⟨dateOf now_utc, 1,
        [⟨now_utc, to_ist now_utc, last_mod, to_ist last_mod⟩]⟩, by simp, rfl,
      ⟨now_utc, to_ist now_utc, last_mod, to_ist last_mod⟩, by simp, rfl, rfl⟩
  · intro doc doc' ls' h
    have hd := process_feed_updated_eq h
    subst hd
    obtain ⟨b, hb, hdate, hlast⟩ := addEvent_mem_last doc.refresh_log
      (dateOf now_utc) ⟨now_utc, to_ist now_utc, last_mod, to_ist last_mod⟩
    exact ⟨b, hb, hdate, _, hlast, rfl, rfl⟩

/-- Witness for `process_feed_lastUpdated_matches`: the record created by
a concrete first observation carries its sole event's timestamp. -/
theorem process_feed_lastUpdated_matches_witness :
    ∃ b ∈ (⟨"e", "e", "n", "u", 1, 5, to_ist 5,
        [⟨dateOf 0, 1, [⟨0, to_ist 0, 5, to_ist 5⟩]⟩]⟩ : HistoryDoc).refresh_log,
      b.date = dateOf 0
      ∧ ∃ e, b.times.getLast? = some e
        ∧ e.xml_last_updated_utc
            = (⟨"e", "e", "n", "u", 1, 5, to_ist 5,
               [⟨dateOf 0, 1, [⟨0, to_ist 0, 5, to_ist 5⟩]⟩]⟩ :
                 HistoryDoc).xml_last_updated_utc
        ∧ e.checked_utc = 0 :=
  (process_feed_lastUpdated_matches ⟨"e", "n", "u"⟩ [] 5 0 0).1
    ⟨"e", "e", "n", "u", 1, 5, to_ist 5,
     [⟨dateOf 0, 1, [⟨0, to_ist 0, 5, to_ist 5⟩]⟩]⟩
    [⟨"e", 0, 5⟩] (by decide)

/-- C7: `normalize_last_modified` never lets a parse exception escape:
whatever the stdlib parser does, the result is either `None` (any parse
failure) or an instant pinned to UTC — converted when the parsed value
carried a timezone, assumed UTC when naive — with sub-second precision
truncated to zero. -/
theorem normalize_last_modified_contract
    (parsedate_to_datetime : String → Option PyDateTime) (raw : String) :
    (∀ dt, normalize_last_modified parsedate_to_datetime raw = some dt →
        dt.tz = some 0 ∧ dt.micro = 0)
    ∧ (parsedate_to_datetime raw = none →
        normalize_last_modified parsedate_to_datetime raw = none)
    ∧ (∀ dt0, parsedate_to_datetime raw = some dt0 →
        normalize_last_modified parsedate_to_datetime raw
          = some ⟨dt0.wall - dt0.tz.getD 0, 0, some 0⟩) := by
  refine ⟨?_, ?_, ?_⟩
  · intro dt h
    cases hp : parsedate_to_datetime raw with
    | none =>
      simp only [normalize_last_modified, hp] at h
      exact absurd h (by simp)
    | some d =>
      simp only [normalize_last_modified, hp] at h
      cases ht : d.tz with
      | none =>
        simp only [ht, Option.some.injEq] at h
        rw [← h]
        exact ⟨rfl, rfl⟩
      | some off =>
        simp only [ht, Option.some.injEq] at h
        rw [← h]
        exact ⟨rfl, rfl⟩
  · intro hp
    simp only [normalize_last_modified, hp]
  · intro dt0 hp
    simp only [normalize_last_modified, hp]
    cases ht : dt0.tz with
    | none =>
      simp [ht, astimezone_utc]
    | some off =>
      simp [ht, astimezone_utc]

/-- Witness for `normalize_last_modified_contract`: a parser returning an
aware datetime at offset +3600 with microseconds gets converted to UTC
and truncated. -/
theorem normalize_last_modified_contract_witness :
    normalize_last_modified (fun _ => some ⟨100, 5, some 3600⟩) "x"
      = some ⟨100 - (3600 : Int), 0, some 0⟩ :=
  (normalize_last_modified_contract (fun _ => some ⟨100, 5, some 3600⟩) "x").2.2
    ⟨100, 5, some 3600⟩ rfl

end XmlFeed
